import Mathlib

/-!
Verification of the finances-csv-importer incremental import pipeline.

Strings from the source program are represented as their character lists
(`List Char`).  Rust `i32` arithmetic is modelled on `Int` with explicit
two's-complement wrapping (`wrap32`), matching release-mode semantics;
the `as u8` / `as i32` / `as u64` casts are modelled as the corresponding
modular reductions.
-/

/-! ## Definitions: shallow embedding of the program -/

set_option autoImplicit false

set_option maxRecDepth 8192

/-- Two's-complement wrap of an integer into the `i32` range
`[-2^31, 2^31)`; models Rust `i32` arithmetic results. -/

def wrap32 (x : Int) : Int := (x + 2 ^ 31) % 2 ^ 32 - 2 ^ 31

/-- Rust `char::to_digit(10)` for an ASCII digit, as an integer
(only ever applied when `Char.isDigit` holds). -/

def digitVal (c : Char) : Int := ((c.toNat - 48 : Nat) : Int)

/-- src/currency.rs: `struct Currency { whole: i32, digits: u8 }`.
`whole` carries the i32 value; `digits` the u8 value (a `Nat < 256`). -/

structure Currency where
  whole : Int
  digits : Nat
deriving DecidableEq

/-- src/currency.rs: `Currency::zero()`. -/

def Currency.zero : Currency := ⟨0, 0⟩

/-- Decimal rendering of a `Nat`, used for the `{}` / `{:02}` format
specifiers (`Nat.toDigits 10` is the core decimal digit printer). -/

def renderNat (n : Nat) : List Char := Nat.toDigits 10 n

/-- Rendering of an `i32` by the Rust `{}` format specifier. -/

def renderInt (i : Int) : List Char :=
  if i < 0 then '-' :: renderNat i.natAbs else renderNat i.toNat

/-- Rendering of a `u8` by the Rust `{:02}` format specifier:
zero-padded to width two (wider values render unpadded). -/

def pad2 (n : Nat) : List Char :=
  if n < 10 then '0' :: renderNat n else renderNat n

/-- src/currency.rs: `impl fmt::Display for Currency`, i.e.
`write!(f, "{}.{:02}", self.whole, self.digits)`. -/

def Currency.display (c : Currency) : List Char :=
  renderInt c.whole ++ '.' :: pad2 c.digits

/-- src/currency.rs: `struct ParseCurrencyError { source: String }`;
the error carries the offending input text. -/

structure ParseCurrencyError where
  source : List Char
deriving DecidableEq

/-- One iteration of the integer-portion loop of `Currency::from_str`
(state: `negative`, `whole`, `magnitude`).  A `(` marks the value
negative; an ASCII digit (the chars where both `is_numeric()` and
`to_digit(10)` succeed) accumulates into `whole`; all else is skipped. -/

def wholeStep (st : Bool × Int × Int) (c : Char) : Bool × Int × Int :=
  if c = '(' then (true, st.2.1, st.2.2)
  else if c.isDigit then
    (st.1, wrap32 (st.2.1 + digitVal c * st.2.2), wrap32 (st.2.2 * 10))
  else st

/-- The integer-portion loop: `for c in whole_chars.chars().rev()`. -/

def scanWhole (cs : List Char) : Bool × Int × Int :=
  cs.reverse.foldl wholeStep (false, 0, 1)

/-- One iteration of the fractional-portion loop of `Currency::from_str`
(state: `digits`, `magnitude`). -/

def fracStep (st : Int × Int) (c : Char) : Int × Int :=
  if c.isDigit then (wrap32 (st.1 + digitVal c * st.2), wrap32 (st.2 * 10))
  else st

/-- The fractional-portion loop: `for c in digit_chars.chars().rev()`. -/

def scanFrac (cs : List Char) : Int × Int :=
  cs.reverse.foldl fracStep (0, 1)

/-- Rust `str::split_once(".")`: split at the first `.`, if any. -/

def splitOnceDot : List Char → Option (List Char × List Char)
  | [] => none
  | c :: cs =>
    if c = '.' then some ([], cs)
    else (splitOnceDot cs).map (fun p => (c :: p.1, p.2))

/-- src/currency.rs: `impl FromStr for Currency`.  With a decimal point
the two portions are scanned right-to-left and the accumulated i32
`digits` value is cast `as u8` (reduction mod 256); without one, only
the placeholder `"$-"` (after removing spaces, `replace(" ", "")`) is
accepted and decodes to zero; anything else is a `ParseCurrencyError`
naming the input. -/

def Currency.from_str (s : List Char) : Except ParseCurrencyError Currency :=
  match splitOnceDot s with
  | some (whole_chars, digit_chars) =>
    let st := scanWhole whole_chars
    let negative := st.1
    let whole := st.2.1
    let digits := (scanFrac digit_chars).1
    let whole := if negative then wrap32 (whole * -1) else whole
    Except.ok { whole := whole, digits := (digits % 256).toNat }
  | none =>
    if s.filter (fun c => c ≠ ' ') = ['$', '-'] then Except.ok Currency.zero
    else Except.error ⟨s⟩

/-- String literals as character lists. -/

def chars (s : String) : List Char := s.data

deriving instance DecidableEq for Except

/-- Value of a digit-character list read most-significant-first. -/

def digitsVal : List Char → Int
  | [] => 0
  | c :: cs => digitVal c * 10 ^ cs.length + digitsVal cs

/-- Well-formed integer portion: only digits and locale characters
(currency symbol, grouping commas, accounting parentheses, spaces),
with at most nine digits so the value fits an `i32`. -/

def wellFormedWhole (w : List Char) : Prop :=
  (∀ c ∈ w, c.isDigit = true ∨ c ∈ ['$', ',', '(', ')', ' ']) ∧
  (w.filter Char.isDigit).length ≤ 9

/-- Well-formed fractional portion: exactly two digit characters,
besides closing parentheses or spaces. -/

def wellFormedFrac (f : List Char) : Prop :=
  (∀ c ∈ f, c.isDigit = true ∨ c ∈ [')', ' ']) ∧
  (f.filter Char.isDigit).length = 2

/-- The whole part of the value denoted by a currency text, following
the spec: negative when the integer portion is parenthesized, with
magnitude the value of its digit characters. -/

def denotedWhole (w : List Char) : Int :=
  if w.contains '(' then -(digitsVal (w.filter Char.isDigit))
  else digitsVal (w.filter Char.isDigit)

/-- The two-digit fractional part of the value denoted by a currency
text. -/

def denotedFrac (f : List Char) : Nat := (digitsVal (f.filter Char.isDigit)).toNat

/-- The cast `row.id as i32` (src/db.rs, bind of `tx_id`): the u64 id truncated
to a signed 32-bit value. -/

def i32OfU64 (n : Nat) : Int := wrap32 (n : Int)

/-- The cast `max as u64` (src/main.rs, the resume filter): the i32 maximum
reinterpreted as an unsigned 64-bit value. -/

def u64OfI32 (m : Int) : Nat := (m % 2 ^ 64).toNat

/-- src/domain.rs: `CsvRecord`.  The date is modelled abstractly by its
source text; `id` is the u64 per-account ordinal. -/

structure CsvRecord where
  account : String
  id : Nat
  date : String
  amount : Currency
  balance : Currency
  vendor : String
  digits : Option String
  transaction_type : String
  category : Option String
  subcategory : Option String
  notes : Option String
  income : Bool
  fixed : Bool
  spend : Bool
deriving DecidableEq

/-- A persisted row: the eleven columns bound by `insert_single_row`
(currency values are bound as their `to_string()` renderings). -/

structure StoredRow where
  account : String
  tx_id : Int
  tx_date : String
  amount : List Char
  balance : List Char
  vendor : String
  digits : Option String
  transaction_type : String
  category : Option String
  subcategory : Option String
  notes : Option String
deriving DecidableEq

abbrev Table := List StoredRow

/-- The row bound by the INSERT statement of `insert_single_row`. -/

def mkStored (r : CsvRecord) : StoredRow :=
  ⟨r.account, i32OfU64 r.id, r.date, r.amount.display, r.balance.display,
    r.vendor, r.digits, r.transaction_type, r.category, r.subcategory, r.notes⟩

/-- Modelled from the spec: the target table is keyed by the natural
key `(account, id)` (spec sections 3 and 6); the schema file
`templates/init.sql` that declares the unique index is not among the
sources.  `keyPresent t r` holds when the table already has a row with
the record's natural key. -/

def keyPresent (t : Table) (r : CsvRecord) : Bool :=
  t.any (fun x => x.account == r.account && x.tx_id == i32OfU64 r.id)

/-- Database semantics of the `INSERT ... ON CONFLICT DO NOTHING`
statement issued by `insert_single_row`: a silent no-op when a row
with the same natural key exists, otherwise the row is appended. -/

def applyInsert (t : Table) (r : CsvRecord) : Table :=
  if keyPresent t r then t else t ++ [mkStored r]

inductive SqlxError where
  | unexpectedNull
deriving DecidableEq

/-- src/db.rs: `select_max_tx_for_account`.  `SELECT MAX(tx_id) FROM
{table} WHERE account = $1`, decoded by `query_as::<(i32,)>` and
`fetch_one`: `MAX` over an account with no rows yields SQL NULL, and
decoding NULL into the non-nullable `i32` fails, so the call returns
an error instead of an absent value. -/

def select_max_tx_for_account (account : String) (t : Table) : Except SqlxError Int :=
  match (t.filter (fun x => x.account == account)).map (fun x => x.tx_id) with
  | [] => Except.error SqlxError.unexpectedNull
  | x :: xs => Except.ok (xs.foldl max x)

/-- Pipeline state threaded through the importer: the persisted table
plus instrumentation — the rows handed to `insert_single_row`, the
executions of the per-row failure branch in `import_refs`, an index
into the outcome oracle, and the rows handed to the batch importer by
`load_new_rows`. -/

structure DbState where
  table : Table
  attempts : List CsvRecord
  errBranches : Nat
  oracleIdx : Nat
  passed : List CsvRecord

def DbState.init (t : Table) : DbState := ⟨t, [], 0, 0, []⟩

/-- The all-successes outcome oracle: every database execute succeeds. -/

def happyOracle : Nat → Bool := fun _ => true

/-- src/db.rs: `insert_single_row`.  The sqlx execute outcome is drawn
from the oracle; a failed execute persists nothing and is only logged,
and the function returns `Ok(())` unconditionally. -/

def insert_single_row (oracle : Nat → Bool) (row : CsvRecord) (s : DbState) :
    Except SqlxError Unit × DbState :=
  let outcome := oracle s.oracleIdx
  (Except.ok (),
    { s with
        table := if outcome then applyInsert s.table row else s.table
        oracleIdx := s.oracleIdx + 1
        attempts := s.attempts ++ [row] })

/-- One iteration of the row loop in `import_refs`; the per-row
failure branch (`error!("Could not insert row {}/{}", ...)`) is
counted in `errBranches`. -/

def insertStep (oracle : Nat → Bool) (s : DbState) (row : CsvRecord) : DbState :=
  match insert_single_row oracle row s with
  | (Except.error _, s') => { s' with errBranches := s'.errBranches + 1 }
  | (Except.ok _, s') => s'

/-- Rust `slice::chunks n` (fuelled by the list length; `n` is the positive
constant 50 at the call site). -/

def chunksOfAux {α : Type} (n : Nat) : Nat → List α → List (List α)
  | 0, _ => []
  | _, [] => []
  | fuel + 1, l => l.take n :: chunksOfAux n fuel (l.drop n)

def chunksOf {α : Type} (n : Nat) (l : List α) : List (List α) :=
  chunksOfAux n l.length l

/-- src/db.rs: `import_refs`.  Records are chunked 50 at a time and a
transaction is opened per chunk — but the inner loop is
`for row in records`, iterating the WHOLE record slice on every chunk
(the chunk itself is only used by the debug logs). -/

def import_refs (oracle : Nat → Bool) (records : List CsvRecord) (s : DbState) : DbState :=
  (chunksOf 50 records).foldl
    (fun s _chunk => records.foldl (insertStep oracle) s) s

/-- src/db.rs: `import` — collects references and calls `import_refs`
on the whole slice (`import` is a Lean keyword, hence the name). -/

def importRecords (oracle : Nat → Bool) (records : List CsvRecord) (s : DbState) : DbState :=
  import_refs oracle records s

/-- The resume filter of `load_new_rows`: `r.id > max as u64`. -/

def newForMax (m : Int) (r : CsvRecord) : Bool := r.id > u64OfI32 m

/-- Prepending one record to an adjacency grouping: it joins the first
group when the account matches, else starts a new group. -/

def groupStep (r : CsvRecord) : List (String × List CsvRecord) → List (String × List CsvRecord)
  | [] => [(r.account, [r])]
  | (a, g) :: rest =>
    if r.account = a then (a, r :: g) :: rest
    else (r.account, [r]) :: (a, g) :: rest

/-- The `Itertools::group_by` grouping keyed by account: consecutive runs of equal
account become one group each. -/

def groupRuns : List CsvRecord → List (String × List CsvRecord)
  | [] => []
  | r :: rs => groupStep r (groupRuns rs)

/-- One group of the `load_new_rows` loop: resolve the account's
maximum (silently skipping the group when the query errors — the
`if let Ok(max)` guard), keep ids above it, and import when any
remain. -/

def lnrStep (oracle : Nat → Bool) (s : DbState) (g : String × List CsvRecord) : DbState :=
  match select_max_tx_for_account g.1 s.table with
  | Except.error _ => s
  | Except.ok m =>
    let to_import := g.2.filter (newForMax m)
    if to_import.isEmpty then s
    else import_refs oracle to_import { s with passed := s.passed ++ to_import }

/-- src/main.rs: `load_new_rows`. -/

def load_new_rows (oracle : Nat → Bool) (rows : List CsvRecord) (s : DbState) : DbState :=
  (groupRuns rows).foldl (lnrStep oracle) s

/-- A minimal record for concrete scenarios. -/

def mkRec (acct : String) (i : Nat) : CsvRecord :=
  ⟨acct, i, "01/01/2020", ⟨0, 0⟩, ⟨0, 0⟩, "v", none, "t", none, none, none,
    false, false, false⟩

/-- Reinterpretation of an unsigned 32-bit value as signed, as the
spec describes the stored ordinal for large ids. -/

def specSigned32 (k : Nat) : Int :=
  if k < 2 ^ 31 then (k : Int) else (k : Int) - 2 ^ 32

/-- Reinterpretation of a signed value as unsigned 64-bit, as the spec
describes the comparison side of the resume filter. -/

def specUnsigned64 (m : Int) : Nat :=
  if 0 ≤ m then m.toNat else (2 ^ 64 + m).toNat

/-! ## Theorems -/

theorem digitsVal_nonneg (cs : List Char) : 0 ≤ digitsVal cs := by
  induction cs with
  | nil => simp [digitsVal]
  | cons c cs ih =>
    have h0 : (0 : Int) ≤ digitVal c := by
      simp [digitVal]
    have hp : (0 : Int) ≤ 10 ^ cs.length := by positivity
    simp only [digitsVal]
    have := mul_nonneg h0 hp
    omega

theorem digitVal_le_nine {c : Char} (h : c.isDigit = true) : digitVal c ≤ 9 := by
  simp only [Char.isDigit, decide_eq_true_eq, Bool.and_eq_true, decide_eq_true_iff] at h
  have h2 : c.toNat ≤ 57 := h.2
  simp only [digitVal]
  omega

theorem digitsVal_lt (cs : List Char) (h : ∀ c ∈ cs, c.isDigit = true) :
    digitsVal cs < 10 ^ cs.length := by
  induction cs with
  | nil => simp [digitsVal]
  | cons c cs ih =>
    have hc : digitVal c ≤ 9 := digitVal_le_nine (h c (List.mem_cons_self c cs))
    have hcs : digitsVal cs < 10 ^ cs.length := ih (fun x hx => h x (List.mem_cons_of_mem c hx))
    simp only [digitsVal, List.length_cons]
    have h9 : digitVal c * 10 ^ cs.length ≤ 9 * 10 ^ cs.length := by
      have : (0 : Int) ≤ 10 ^ cs.length := by positivity
      exact mul_le_mul_of_nonneg_right hc this
    have : (10 : Int) ^ (cs.length + 1) = 10 * 10 ^ cs.length := by ring
    omega

theorem wrap32_eq_self {x : Int} (h1 : -(2 ^ 31) ≤ x) (h2 : x < 2 ^ 31) :
    wrap32 x = x := by
  unfold wrap32
  omega

theorem scanWhole_cons (c : Char) (cs : List Char) :
    scanWhole (c :: cs) = wholeStep (scanWhole cs) c := by
  simp [scanWhole, List.reverse_cons, List.foldl_append]

theorem scanFrac_cons (c : Char) (cs : List Char) :
    scanFrac (c :: cs) = fracStep (scanFrac cs) c := by
  simp [scanFrac, List.reverse_cons, List.foldl_append]

/-- With at most nine digit characters no i32 wrap occurs: the
integer-portion scan returns whether a parenthesis occurred, the value
of the digit characters, and the final magnitude. -/
theorem scanWhole_eq (cs : List Char)
    (h9 : (cs.filter Char.isDigit).length ≤ 9) :
    scanWhole cs =
      (cs.contains '(', digitsVal (cs.filter Char.isDigit),
        10 ^ (cs.filter Char.isDigit).length) := by
  induction cs with
  | nil => simp [scanWhole, List.contains, digitsVal]
  | cons c cs ih =>
    have hmono : (cs.filter Char.isDigit).length ≤ ((c :: cs).filter Char.isDigit).length := by
      by_cases hd : c.isDigit = true <;> simp [List.filter_cons, hd]
    have ih' := ih (le_trans hmono h9)
    rw [scanWhole_cons, ih']
    by_cases hp : c = '('
    · subst hp
      have : ('(' : Char).isDigit = false := by decide
      simp [wholeStep, List.filter_cons, this, List.contains_cons]
    · by_cases hd : c.isDigit = true
      · have hlen : ((c :: cs).filter Char.isDigit).length = (cs.filter Char.isDigit).length + 1 := by
          simp [List.filter_cons, hd]
        have hn : (cs.filter Char.isDigit).length ≤ 8 := by omega
        have hdv : ∀ x ∈ cs.filter Char.isDigit, x.isDigit = true := by
          intro x hx; exact List.of_mem_filter hx
        have hvlt : digitsVal (cs.filter Char.isDigit) < 10 ^ (cs.filter Char.isDigit).length :=
          digitsVal_lt _ hdv
        have hvnn : 0 ≤ digitsVal (cs.filter Char.isDigit) := digitsVal_nonneg _
        have hdc9 : digitVal c ≤ 9 := digitVal_le_nine hd
        have hdc0 : (0 : Int) ≤ digitVal c := by simp [digitVal]
        have hpow : (10 : Int) ^ (cs.filter Char.isDigit).length ≤ 10 ^ 8 := by
          exact pow_le_pow_right₀ (by norm_num) hn
        have hpow0 : (0 : Int) < 10 ^ (cs.filter Char.isDigit).length := by positivity
        have hmul : digitVal c * 10 ^ (cs.filter Char.isDigit).length ≤ 9 * 10 ^ 8 := by
          calc digitVal c * 10 ^ (cs.filter Char.isDigit).length
              ≤ 9 * 10 ^ (cs.filter Char.isDigit).length :=
                mul_le_mul_of_nonneg_right hdc9 (le_of_lt hpow0)
            _ ≤ 9 * 10 ^ 8 := by
                have : (0:Int) ≤ 9 := by norm_num
                exact mul_le_mul_of_nonneg_left hpow this
        have hmul0 : 0 ≤ digitVal c * 10 ^ (cs.filter Char.isDigit).length :=
          mul_nonneg hdc0 (le_of_lt hpow0)
        have hw1 : wrap32 (digitsVal (cs.filter Char.isDigit) +
            digitVal c * 10 ^ (cs.filter Char.isDigit).length) =
            digitsVal (cs.filter Char.isDigit) +
            digitVal c * 10 ^ (cs.filter Char.isDigit).length := by
          apply wrap32_eq_self <;> omega
        have hw2 : wrap32 (10 ^ (cs.filter Char.isDigit).length * 10) =
            10 ^ (cs.filter Char.isDigit).length * 10 := by
          apply wrap32_eq_self <;> omega
        have hcne : (('(' : Char) == c) = false :=
          beq_eq_false_iff_ne.mpr (fun hc => hp hc.symm)
        simp only [wholeStep, if_neg hp, if_pos hd]
        rw [hw1, hw2]
        simp only [Prod.mk.injEq, List.contains_cons, hcne, Bool.false_or]
        refine ⟨trivial, ?_, ?_⟩
        · simp only [List.filter_cons, hd, if_true, digitsVal]
          ring
        · simp only [List.filter_cons, hd, if_true, List.length_cons]
          ring
      · have hd' : c.isDigit = false := by
          cases h : c.isDigit
          · rfl
          · exact absurd h hd
        have hcne : (('(' : Char) == c) = false :=
          beq_eq_false_iff_ne.mpr (fun hc => hp hc.symm)
        simp only [wholeStep, if_neg hp, if_neg hd]
        simp only [Prod.mk.injEq, List.contains_cons, hcne, Bool.false_or,
          List.filter_cons, hd', if_false]
        exact ⟨trivial, rfl, rfl⟩

/-- Same characterization for the fractional-portion scan. -/
theorem scanFrac_eq (cs : List Char)
    (h9 : (cs.filter Char.isDigit).length ≤ 9) :
    scanFrac cs =
      (digitsVal (cs.filter Char.isDigit),
        10 ^ (cs.filter Char.isDigit).length) := by
  induction cs with
  | nil => simp [scanFrac, digitsVal]
  | cons c cs ih =>
    have hmono : (cs.filter Char.isDigit).length ≤ ((c :: cs).filter Char.isDigit).length := by
      by_cases hd : c.isDigit = true <;> simp [List.filter_cons, hd]
    have ih' := ih (le_trans hmono h9)
    rw [scanFrac_cons, ih']
    by_cases hd : c.isDigit = true
    · have hlen : ((c :: cs).filter Char.isDigit).length = (cs.filter Char.isDigit).length + 1 := by
        simp [List.filter_cons, hd]
      have hn : (cs.filter Char.isDigit).length ≤ 8 := by omega
      have hdv : ∀ x ∈ cs.filter Char.isDigit, x.isDigit = true := by
        intro x hx; exact List.of_mem_filter hx
      have hvlt : digitsVal (cs.filter Char.isDigit) < 10 ^ (cs.filter Char.isDigit).length :=
        digitsVal_lt _ hdv
      have hvnn : 0 ≤ digitsVal (cs.filter Char.isDigit) := digitsVal_nonneg _
      have hdc9 : digitVal c ≤ 9 := digitVal_le_nine hd
      have hdc0 : (0 : Int) ≤ digitVal c := by simp [digitVal]
      have hpow : (10 : Int) ^ (cs.filter Char.isDigit).length ≤ 10 ^ 8 :=
        pow_le_pow_right₀ (by norm_num) hn
      have hpow0 : (0 : Int) < 10 ^ (cs.filter Char.isDigit).length := by positivity
      have hmul : digitVal c * 10 ^ (cs.filter Char.isDigit).length ≤ 9 * 10 ^ 8 := by
        calc digitVal c * 10 ^ (cs.filter Char.isDigit).length
            ≤ 9 * 10 ^ (cs.filter Char.isDigit).length :=
              mul_le_mul_of_nonneg_right hdc9 (le_of_lt hpow0)
          _ ≤ 9 * 10 ^ 8 := by
              have : (0:Int) ≤ 9 := by norm_num
              exact mul_le_mul_of_nonneg_left hpow this
      have hmul0 : 0 ≤ digitVal c * 10 ^ (cs.filter Char.isDigit).length :=
        mul_nonneg hdc0 (le_of_lt hpow0)
      have hw1 : wrap32 (digitsVal (cs.filter Char.isDigit) +
          digitVal c * 10 ^ (cs.filter Char.isDigit).length) =
          digitsVal (cs.filter Char.isDigit) +
          digitVal c * 10 ^ (cs.filter Char.isDigit).length := by
        apply wrap32_eq_self <;> omega
      have hw2 : wrap32 (10 ^ (cs.filter Char.isDigit).length * 10) =
          10 ^ (cs.filter Char.isDigit).length * 10 := by
        apply wrap32_eq_self <;> omega
      simp only [fracStep, if_pos hd]
      rw [hw1, hw2]
      simp only [Prod.mk.injEq]
      refine ⟨?_, ?_⟩
      · simp only [List.filter_cons, hd, if_true, digitsVal]
        ring
      · simp only [List.filter_cons, hd, if_true, List.length_cons]
        ring
    · have hd' : c.isDigit = false := by
        cases h : c.isDigit
        · rfl
        · exact absurd h hd
      simp only [fracStep, if_neg hd]
      simp only [Prod.mk.injEq, List.filter_cons, hd', if_false]
      exact ⟨rfl, rfl⟩

theorem from_str_of_split {s w f : List Char} (hs : splitOnceDot s = some (w, f)) :
    Currency.from_str s = Except.ok
      ⟨if (scanWhole w).1 then wrap32 ((scanWhole w).2.1 * -1) else (scanWhole w).2.1,
        ((scanFrac f).1 % 256).toNat⟩ := by
  simp [Currency.from_str, hs]

theorem from_str_of_none {s : List Char} (h : splitOnceDot s = none) :
    Currency.from_str s =
      if s.filter (fun c => c ≠ ' ') = ['$', '-'] then Except.ok Currency.zero
      else Except.error ⟨s⟩ := by
  unfold Currency.from_str
  rw [h]

theorem splitOnceDot_eq_none_iff (s : List Char) :
    splitOnceDot s = none ↔ '.' ∉ s := by
  induction s with
  | nil => simp [splitOnceDot]
  | cons c cs ih =>
    by_cases hc : c = '.'
    · subst hc
      simp [splitOnceDot]
    · simp only [splitOnceDot, if_neg hc, Option.map_eq_none', ih, List.mem_cons]
      constructor
      · intro h hmem
        rcases hmem with h1 | h2
        · exact hc h1.symm
        · exact h h2
      · intro h hmem
        exact h (Or.inr hmem)

theorem splitOnceDot_append (w f : List Char) (hw : '.' ∉ w) :
    splitOnceDot (w ++ '.' :: f) = some (w, f) := by
  induction w with
  | nil => simp [splitOnceDot]
  | cons c cs ih =>
    have hc : ¬c = '.' := fun h => hw (h ▸ List.mem_cons_self c cs)
    have hcs : '.' ∉ cs := fun h => hw (List.mem_cons_of_mem c h)
    simp [splitOnceDot, if_neg hc, ih hcs]

theorem digitsVal_lt_pow31 (cs : List Char) (h9 : (cs.filter Char.isDigit).length ≤ 9) :
    digitsVal (cs.filter Char.isDigit) < 2 ^ 31 := by
  have hdv : ∀ x ∈ cs.filter Char.isDigit, x.isDigit = true := by
    intro x hx; exact List.of_mem_filter hx
  have h1 : digitsVal (cs.filter Char.isDigit) < 10 ^ (cs.filter Char.isDigit).length :=
    digitsVal_lt _ hdv
  have h2 : (10 : Int) ^ (cs.filter Char.isDigit).length ≤ 10 ^ 9 :=
    pow_le_pow_right₀ (by norm_num) h9
  have : (10 : Int) ^ 9 < 2 ^ 31 := by norm_num
  omega

/-- C4: parsing fails with a `ParseCurrencyError` naming the input
exactly when the input has no decimal point and, with spaces removed,
is not the placeholder `"$-"`; the placeholder decodes to
`Currency.zero`; any input containing a decimal point parses. -/
theorem currency_parse_failure_iff (s : List Char) :
    ((∃ e, Currency.from_str s = Except.error e) ↔
      ('.' ∉ s ∧ s.filter (fun c => c ≠ ' ') ≠ ['$', '-'])) ∧
    ('.' ∉ s → s.filter (fun c => c ≠ ' ') ≠ ['$', '-'] →
      Currency.from_str s = Except.error ⟨s⟩) ∧
    ('.' ∉ s → s.filter (fun c => c ≠ ' ') = ['$', '-'] →
      Currency.from_str s = Except.ok Currency.zero) ∧
    ('.' ∈ s → ∃ c, Currency.from_str s = Except.ok c) := by
  cases h : splitOnceDot s with
  | none =>
    have hnm : '.' ∉ s := (splitOnceDot_eq_none_iff s).1 h
    by_cases hf : s.filter (fun c => c ≠ ' ') = ['$', '-']
    · have hok : Currency.from_str s = Except.ok Currency.zero := by
        rw [from_str_of_none h, if_pos hf]
      refine ⟨?_, ?_, ?_, ?_⟩
      · constructor
        · rintro ⟨e, he⟩
          rw [hok] at he
          exact absurd he (by simp)
        · rintro ⟨-, hne⟩
          exact absurd hf hne
      · intro _ hne
        exact absurd hf hne
      · intro _ _
        exact hok
      · intro hmem
        exact absurd hmem hnm
    · have herr : Currency.from_str s = Except.error ⟨s⟩ := by
        rw [from_str_of_none h, if_neg hf]
      refine ⟨?_, ?_, ?_, ?_⟩
      · constructor
        · intro _
          exact ⟨hnm, hf⟩
        · intro _
          exact ⟨⟨s⟩, herr⟩
      · intro _ _
        exact herr
      · intro _ hfe
        exact absurd hfe hf
      · intro hmem
        exact absurd hmem hnm
  | some p =>
    have hmem : '.' ∈ s := by
      by_contra hnm
      rw [(splitOnceDot_eq_none_iff s).2 hnm] at h
      exact absurd h (by simp)
    have hok := from_str_of_split (s := s) (w := p.1) (f := p.2) (by rw [h])
    refine ⟨?_, ?_, ?_, ?_⟩
    · constructor
      · rintro ⟨e, he⟩
        rw [hok] at he
        exact absurd he (by simp)
      · rintro ⟨hnm, -⟩
        exact absurd hmem hnm
    · intro hnm
      exact absurd hmem hnm
    · intro hnm
      exact absurd hmem hnm
    · intro _
      exact ⟨_, hok⟩

/-- Witness for C4 at concrete inputs: the placeholder, a malformed
text, and a dotted text. -/
theorem currency_parse_failure_iff_witness :
    Currency.from_str (chars "$ -") = Except.ok Currency.zero ∧
    Currency.from_str (chars "abc") = Except.error ⟨chars "abc"⟩ ∧
    (∃ c, Currency.from_str (chars "1.50") = Except.ok c) :=
  ⟨(currency_parse_failure_iff (chars "$ -")).2.2.1 (by decide) (by decide),
    (currency_parse_failure_iff (chars "abc")).2.1 (by decide) (by decide),
    (currency_parse_failure_iff (chars "1.50")).2.2.2 (by decide)⟩

/-- C5 counterexample: `"$(0.50)"` has a parenthesis in its integer
portion, yet the parsed whole part is `0`, which is not negative. -/
theorem currency_paren_zero_whole :
    splitOnceDot (chars "$(0.50)") = some (chars "$(0", chars "50)") ∧
    '(' ∈ chars "$(0" ∧
    Currency.from_str (chars "$(0.50)") = Except.ok ⟨0, 50⟩ ∧
    ¬((0 : Int) < 0) := by decide

/-- C5 (amended): for an input with a decimal point whose integer
portion contains `(` and at most nine digit characters (no i32
overflow), the parsed whole part is the negation of the integer-digit
value — hence non-positive, and strictly negative exactly when the
integer digits denote a nonzero value (a parenthesized zero parses to
whole `0`, which is not negative) — and the stored fractional
magnitude is always non-negative. -/
theorem currency_paren_nonpositive (s w f : List Char) (c : Currency)
    (hs : splitOnceDot s = some (w, f))
    (hparen : w.contains '(' = true)
    (h9 : (w.filter Char.isDigit).length ≤ 9)
    (hok : Currency.from_str s = Except.ok c) :
    c.whole = -(digitsVal (w.filter Char.isDigit)) ∧
    c.whole ≤ 0 ∧
    (c.whole < 0 ↔ digitsVal (w.filter Char.isDigit) ≠ 0) ∧
    (0 : Int) ≤ (c.digits : Int) := by
  have hval := from_str_of_split hs
  rw [hok] at hval
  have hc : c = ⟨if (scanWhole w).1 then wrap32 ((scanWhole w).2.1 * -1) else (scanWhole w).2.1,
      ((scanFrac f).1 % 256).toNat⟩ := by
    exact Except.ok.inj hval
  have hscan := scanWhole_eq w h9
  have hnn : 0 ≤ digitsVal (w.filter Char.isDigit) := digitsVal_nonneg _
  have hlt : digitsVal (w.filter Char.isDigit) < 2 ^ 31 := digitsVal_lt_pow31 w h9
  have hwrap : wrap32 (digitsVal (w.filter Char.isDigit) * -1) =
      digitsVal (w.filter Char.isDigit) * -1 := by
    apply wrap32_eq_self <;> omega
  have hwhole : c.whole = digitsVal (w.filter Char.isDigit) * -1 := by
    rw [hc]
    simp only [hscan, hparen, if_true]
    exact hwrap
  refine ⟨by omega, by omega, ⟨fun hlt => by omega, fun hne => by omega⟩, by positivity⟩

/-- Witness for C5 (amended) at `"$(12.50)"`: the parenthesized input
parses with a strictly negative whole part. -/
theorem currency_paren_nonpositive_witness :
    ∃ c : Currency, Currency.from_str (chars "$(12.50)") = Except.ok c ∧ c.whole < 0 := by
  have h := currency_paren_nonpositive (chars "$(12.50)") (chars "$(12") (chars "50)")
    ⟨-12, 50⟩ (by decide) (by decide) (by decide) (by decide)
  exact ⟨⟨-12, 50⟩, by decide, h.2.2.1.mpr (by decide)⟩

/-- C6 counterexample: the three-digit fraction `".999"` (digit value
`999`) is stored as `999 mod 256 = 231`, not `999 mod 100 = 99`. -/
theorem currency_frac_not_mod100 :
    digitsVal ((chars "999").filter Char.isDigit) = 999 ∧
    Currency.from_str (chars ".999") = Except.ok ⟨0, 231⟩ ∧
    (999 : Nat) % 100 = 99 ∧ (231 : Nat) ≠ 99 := by decide

/-- C6 (amended): for a fractional portion of at most nine digit
characters (no i32 overflow), the stored fractional magnitude is the
fractional digit value reduced modulo 256 (the `as u8` cast), not
modulo 100. -/
theorem currency_frac_mod256 (s w f : List Char) (c : Currency)
    (hs : splitOnceDot s = some (w, f))
    (h9 : (f.filter Char.isDigit).length ≤ 9)
    (hok : Currency.from_str s = Except.ok c) :
    (c.digits : Int) = digitsVal (f.filter Char.isDigit) % 256 := by
  have hval := from_str_of_split hs
  rw [hok] at hval
  have hc : c = ⟨if (scanWhole w).1 then wrap32 ((scanWhole w).2.1 * -1) else (scanWhole w).2.1,
      ((scanFrac f).1 % 256).toNat⟩ := by
    exact Except.ok.inj hval
  have hscan := scanFrac_eq f h9
  have hnn : (0 : Int) ≤ digitsVal (f.filter Char.isDigit) % 256 := by
    have := digitsVal_nonneg (f.filter Char.isDigit)
    omega
  rw [hc]
  simp only [hscan]
  exact Int.toNat_of_nonneg hnn

/-- Witness for C6 (amended) at `".999"`: the stored fraction is
`999 mod 256 = 231`. -/
theorem currency_frac_mod256_witness :
    ∃ c : Currency, Currency.from_str (chars ".999") = Except.ok c ∧
      (c.digits : Int) = 999 % 256 := by
  have h := currency_frac_mod256 (chars ".999") (chars "") (chars "999")
    ⟨0, 231⟩ (by decide) (by decide) (by decide)
  exact ⟨⟨0, 231⟩, by decide, by rw [h]; decide⟩

/-- C7: parsing a well-formed currency text and displaying the result
yields the canonical `{whole}.{fraction:02}` rendering of the denoted
value. -/
theorem currency_parse_display_roundtrip (w f : List Char)
    (hw : wellFormedWhole w) (hf : wellFormedFrac f) :
    Currency.from_str (w ++ '.' :: f) = Except.ok ⟨denotedWhole w, denotedFrac f⟩ ∧
    Currency.display ⟨denotedWhole w, denotedFrac f⟩ =
      renderInt (denotedWhole w) ++ '.' :: pad2 (denotedFrac f) := by
  have hdot : '.' ∉ w := by
    intro hmem
    rcases hw.1 '.' hmem with h | h
    · exact absurd h (by decide)
    · exact absurd h (by decide)
  have hsplit := splitOnceDot_append w f hdot
  have hval := from_str_of_split hsplit
  have hscanW := scanWhole_eq w hw.2
  have hlen9 : (f.filter Char.isDigit).length ≤ 9 := by
    rw [hf.2]
    norm_num
  have hscanF := scanFrac_eq f hlen9
  have hfnn : 0 ≤ digitsVal (f.filter Char.isDigit) := digitsVal_nonneg _
  have hflt : digitsVal (f.filter Char.isDigit) < 100 := by
    have hdv : ∀ x ∈ f.filter Char.isDigit, x.isDigit = true := by
      intro x hx; exact List.of_mem_filter hx
    have := digitsVal_lt (f.filter Char.isDigit) hdv
    rw [hf.2] at this
    omega
  have hfrac : ((scanFrac f).1 % 256).toNat = denotedFrac f := by
    rw [hscanF]
    simp only [denotedFrac]
    have : digitsVal (f.filter Char.isDigit) % 256 = digitsVal (f.filter Char.isDigit) := by
      omega
    rw [this]
  have hwnn : 0 ≤ digitsVal (w.filter Char.isDigit) := digitsVal_nonneg _
  have hwlt : digitsVal (w.filter Char.isDigit) < 2 ^ 31 := digitsVal_lt_pow31 w hw.2
  have hwhole : (if (scanWhole w).1 then wrap32 ((scanWhole w).2.1 * -1)
      else (scanWhole w).2.1) = denotedWhole w := by
    rw [hscanW]
    simp only [denotedWhole]
    by_cases hp : w.contains '(' = true
    · rw [hp]
      simp only [if_true]
      have : wrap32 (digitsVal (w.filter Char.isDigit) * -1) =
          digitsVal (w.filter Char.isDigit) * -1 := by
        apply wrap32_eq_self <;> omega
      rw [this]
      ring
    · simp only [Bool.not_eq_true] at hp
      rw [hp]
      simp
  refine ⟨?_, rfl⟩
  rw [hval, hwhole, hfrac]

/-- Witness for C7 at `"$(12.50)"`: parses to whole `-12`, fraction
`50`, and displays as `"-12.50"`. -/
theorem currency_parse_display_roundtrip_witness :
    Currency.from_str (chars "$(12.50)") = Except.ok ⟨-12, 50⟩ ∧
    Currency.display ⟨-12, 50⟩ = chars "-12.50" := by
  have h := currency_parse_display_roundtrip (chars "$(12") (chars "50)")
    (by constructor
        · decide
        · decide)
    (by constructor
        · decide
        · decide)
  have heq : chars "$(12.50)" = chars "$(12" ++ '.' :: chars "50)" := by decide
  have hdw : denotedWhole (chars "$(12") = -12 := by decide
  have hdf : denotedFrac (chars "50)") = 50 := by decide
  constructor
  · rw [heq, h.1, hdw, hdf]
  · decide

theorem insertStep_table (oracle : Nat → Bool) (s : DbState) (row : CsvRecord) :
    (insertStep oracle s row).table =
      if oracle s.oracleIdx then applyInsert s.table row else s.table := rfl

theorem insertStep_passed (oracle : Nat → Bool) (s : DbState) (row : CsvRecord) :
    (insertStep oracle s row).passed = s.passed := rfl

theorem insertStep_errBranches (oracle : Nat → Bool) (s : DbState) (row : CsvRecord) :
    (insertStep oracle s row).errBranches = s.errBranches := rfl

theorem foldl_insertStep_passed (oracle : Nat → Bool) (l : List CsvRecord) :
    ∀ s : DbState, (l.foldl (insertStep oracle) s).passed = s.passed := by
  induction l with
  | nil => intro s; rfl
  | cons a as ih =>
    intro s
    rw [List.foldl_cons, ih, insertStep_passed]

theorem foldl_insertStep_errBranches (oracle : Nat → Bool) (l : List CsvRecord) :
    ∀ s : DbState, (l.foldl (insertStep oracle) s).errBranches = s.errBranches := by
  induction l with
  | nil => intro s; rfl
  | cons a as ih =>
    intro s
    rw [List.foldl_cons, ih, insertStep_errBranches]

theorem import_refs_passed (oracle : Nat → Bool) (records : List CsvRecord) :
    ∀ s : DbState, (import_refs oracle records s).passed = s.passed := by
  unfold import_refs
  induction chunksOf 50 records with
  | nil => intro s; rfl
  | cons c cl ih =>
    intro s
    rw [List.foldl_cons, ih, foldl_insertStep_passed]

theorem import_refs_errBranches (oracle : Nat → Bool) (records : List CsvRecord) :
    ∀ s : DbState, (import_refs oracle records s).errBranches = s.errBranches := by
  unfold import_refs
  induction chunksOf 50 records with
  | nil => intro s; rfl
  | cons c cl ih =>
    intro s
    rw [List.foldl_cons, ih, foldl_insertStep_errBranches]

/-- C9: `insert_single_row` returns `Ok(())` for every row, every
oracle outcome and every state — a failed database execute is only
logged — and consequently the per-row failure branch of `import_refs`
never executes (its counter never moves). -/
theorem insert_single_row_always_ok :
    (∀ (oracle : Nat → Bool) (row : CsvRecord) (s : DbState),
      (insert_single_row oracle row s).1 = Except.ok ()) ∧
    (∀ (oracle : Nat → Bool) (records : List CsvRecord) (s : DbState),
      (import_refs oracle records s).errBranches = s.errBranches) :=
  ⟨fun _ _ _ => rfl, fun oracle records s => import_refs_errBranches oracle records s⟩

/-- C1 is falsified by the code: with 51 records `import_refs` builds
two chunks but its inner loop runs over the whole record slice for
each chunk, so 102 insert attempts are made and each record (here the
one with id 0) is attempted twice rather than once. -/
theorem import_refs_reattempts_per_chunk :
    (chunksOf 50 ((List.range 51).map (mkRec "A"))).length = 2 ∧
    ((import_refs happyOracle ((List.range 51).map (mkRec "A"))
      (DbState.init [])).attempts).length = 102 ∧
    ((import_refs happyOracle ((List.range 51).map (mkRec "A"))
      (DbState.init [])).attempts).countP (fun r => r.id == 0) = 2 := by decide

/-- C2 is falsified by the code: for an account with no persisted rows
the resume-point query returns a decode error (NULL into `i32`), and
`load_new_rows`' `if let Ok(max)` then silently skips the account, so
its records are neither retained nor handed to the importer. -/
theorem resume_point_new_account_errors :
    select_max_tx_for_account "B" [] = Except.error SqlxError.unexpectedNull ∧
    (load_new_rows happyOracle [mkRec "B" 1] (DbState.init [])).table = [] ∧
    (load_new_rows happyOracle [mkRec "B" 1] (DbState.init [])).passed = [] := by decide

/-- C10: the insert binds `id as i32`, so the persisted ordinal equals
the id exactly when `id < 2^31` and otherwise is the id reduced mod
`2^32` reinterpreted as signed; the incremental filter compares the
full u64 id against the stored maximum cast back to unsigned. -/
theorem tx_id_cast_semantics :
    (∀ r : CsvRecord, (mkStored r).tx_id = i32OfU64 r.id) ∧
    (∀ n : Nat, n < 2 ^ 64 →
      ((i32OfU64 n = (n : Int)) ↔ n < 2 ^ 31) ∧
      i32OfU64 n = specSigned32 (n % 2 ^ 32)) ∧
    (∀ m : Int, -(2 ^ 31) ≤ m → m < 2 ^ 31 →
      u64OfI32 m = specUnsigned64 m ∧
      ∀ r : CsvRecord, (newForMax m r = true ↔ r.id > specUnsigned64 m)) := by
  refine ⟨fun r => rfl, fun n hn => ⟨?_, ?_⟩, fun m h1 h2 => ?_⟩
  · unfold i32OfU64 wrap32
    omega
  · unfold i32OfU64 wrap32 specSigned32
    split <;> omega
  · have he : u64OfI32 m = specUnsigned64 m := by
      unfold u64OfI32 specUnsigned64
      split <;> omega
    refine ⟨he, fun r => ?_⟩
    unfold newForMax
    rw [he]
    simp [gt_iff_lt]

/-- Witness for C10: id 5 is stored unchanged, id `2^31` is stored as
the wrapped signed value, and a negative maximum is compared as a
huge unsigned value. -/
theorem tx_id_cast_semantics_witness :
    i32OfU64 5 = (5 : Int) ∧
    i32OfU64 (2 ^ 31) = specSigned32 (2 ^ 31 % 2 ^ 32) ∧
    u64OfI32 (-1) = specUnsigned64 (-1) := by
  refine ⟨?_, ?_, ?_⟩
  · exact ((tx_id_cast_semantics.2.1 5 (by norm_num)).1).2 (by norm_num)
  · exact (tx_id_cast_semantics.2.1 (2 ^ 31) (by norm_num)).2
  · exact (tx_id_cast_semantics.2.2 (-1) (by norm_num) (by norm_num)).1

theorem keyPresent_append (t ex : Table) (r : CsvRecord)
    (h : keyPresent t r = true) : keyPresent (t ++ ex) r = true := by
  simp only [keyPresent, List.any_append, Bool.or_eq_true]
  exact Or.inl h

theorem keyPresent_applyInsert_self (t : Table) (r : CsvRecord) :
    keyPresent (applyInsert t r) r = true := by
  unfold applyInsert
  split
  · assumption
  · simp [keyPresent, List.any_append, mkStored]

theorem keyPresent_applyInsert_mono (t : Table) (r r' : CsvRecord)
    (h : keyPresent t r = true) : keyPresent (applyInsert t r') r = true := by
  unfold applyInsert
  split
  · exact h
  · exact keyPresent_append t _ r h

theorem keyPresent_foldl_applyInsert (l : List CsvRecord) :
    ∀ (t : Table) (r : CsvRecord), keyPresent t r = true →
      keyPresent (l.foldl applyInsert t) r = true := by
  induction l with
  | nil => intro t r h; exact h
  | cons a as ih =>
    intro t r h
    rw [List.foldl_cons]
    exact ih _ r (keyPresent_applyInsert_mono t r a h)

theorem foldl_applyInsert_keys (l : List CsvRecord) :
    ∀ (t : Table), ∀ r ∈ l, keyPresent (l.foldl applyInsert t) r = true := by
  induction l with
  | nil => intro t r h; exact absurd h (List.not_mem_nil r)
  | cons a as ih =>
    intro t r hr
    rw [List.foldl_cons]
    rcases List.mem_cons.mp hr with he | hm
    · subst he
      exact keyPresent_foldl_applyInsert as _ r (keyPresent_applyInsert_self t r)
    · exact ih _ r hm

theorem foldl_applyInsert_fixed (l : List CsvRecord) :
    ∀ (t : Table), (∀ r ∈ l, keyPresent t r = true) → l.foldl applyInsert t = t := by
  induction l with
  | nil => intro t _; rfl
  | cons a as ih =>
    intro t h
    rw [List.foldl_cons]
    have ha : applyInsert t a = t := by
      unfold applyInsert
      rw [if_pos (h a (List.mem_cons_self a as))]
    rw [ha]
    exact ih t (fun r hr => h r (List.mem_cons_of_mem a hr))

theorem keyPresent_chunk_iter (records : List CsvRecord) (cl : List (List CsvRecord)) :
    ∀ (t : Table) (r : CsvRecord), keyPresent t r = true →
      keyPresent (cl.foldl (fun t _ => records.foldl applyInsert t) t) r = true := by
  induction cl with
  | nil => intro t r h; exact h
  | cons c cl ih =>
    intro t r h
    rw [List.foldl_cons]
    exact ih _ r (keyPresent_foldl_applyInsert records t r h)

theorem chunk_iter_fixed (records : List CsvRecord) (cl : List (List CsvRecord)) :
    ∀ (t : Table), (∀ r ∈ records, keyPresent t r = true) →
      cl.foldl (fun t _ => records.foldl applyInsert t) t = t := by
  induction cl with
  | nil => intro t _; rfl
  | cons c cl ih =>
    intro t h
    rw [List.foldl_cons, foldl_applyInsert_fixed records t h]
    exact ih t h

theorem foldl_insertStep_table_happy (l : List CsvRecord) :
    ∀ s : DbState, (l.foldl (insertStep happyOracle) s).table = l.foldl applyInsert s.table := by
  induction l with
  | nil => intro s; rfl
  | cons a as ih =>
    intro s
    rw [List.foldl_cons, List.foldl_cons, ih]
    rfl

theorem import_refs_table_happy (records : List CsvRecord) :
    ∀ s : DbState, (import_refs happyOracle records s).table =
      (chunksOf 50 records).foldl (fun t _ => records.foldl applyInsert t) s.table := by
  unfold import_refs
  induction chunksOf 50 records with
  | nil => intro s; rfl
  | cons c cl ih =>
    intro s
    rw [List.foldl_cons, List.foldl_cons, ih, foldl_insertStep_table_happy]

/-- C8: importing the same record sequence twice in Full mode leaves
the persisted table unchanged after the second run, and an insert
whose `(account, id)` natural key already exists is a silent no-op. -/
theorem full_import_idempotent :
    (∀ (records : List CsvRecord) (s : DbState),
      (importRecords happyOracle records (importRecords happyOracle records s)).table =
        (importRecords happyOracle records s).table) ∧
    (∀ (t : Table) (r : CsvRecord), keyPresent t r = true → applyInsert t r = t) := by
  constructor
  · intro records s
    unfold importRecords
    rw [import_refs_table_happy]
    cases hcl : chunksOf 50 records with
    | nil => rfl
    | cons c cl =>
      have hkeys : ∀ r ∈ records,
          keyPresent ((import_refs happyOracle records s).table) r = true := by
        intro r hr
        rw [import_refs_table_happy, hcl, List.foldl_cons]
        exact keyPresent_chunk_iter records cl _ r (foldl_applyInsert_keys records s.table r hr)
      exact chunk_iter_fixed records (c :: cl) _ hkeys
  · intro t r h
    unfold applyInsert
    rw [if_pos h]

/-- Witness for C8's conflict no-op at a concrete table and record. -/
theorem full_import_idempotent_witness :
    applyInsert [mkStored (mkRec "A" 1)] (mkRec "A" 1) = [mkStored (mkRec "A" 1)] :=
  full_import_idempotent.2 [mkStored (mkRec "A" 1)] (mkRec "A" 1) (by decide)

theorem mem_of_head_eq {l : List CsvRecord} {x : CsvRecord}
    (h : l.head? = some x) : x ∈ l := by
  cases l with
  | nil => exact absurd h (by simp)
  | cons a as =>
    have hax : a = x := by simpa using h
    rw [← hax]
    exact List.mem_cons_self a as

theorem mem_of_getLast_eq {l : List CsvRecord} {x : CsvRecord}
    (h : l.getLast? = some x) : x ∈ l := by
  induction l with
  | nil => exact absurd h (by simp)
  | cons a as ih =>
    cases as with
    | nil =>
      have hax : a = x := by simpa using h
      rw [← hax]
      exact List.mem_cons_self a []
    | cons b bs =>
      rw [List.getLast?_cons_cons] at h
      exact List.mem_cons_of_mem a (ih h)

theorem groupRuns_cons_head (r : CsvRecord) (l : List CsvRecord) :
    ∃ g gs, groupRuns (r :: l) = g :: gs ∧ g.1 = r.account := by
  show ∃ g gs, groupStep r (groupRuns l) = g :: gs ∧ g.1 = r.account
  cases h : groupRuns l with
  | nil => exact ⟨(r.account, [r]), [], rfl, rfl⟩
  | cons p rest =>
    obtain ⟨a, g⟩ := p
    by_cases hac : r.account = a
    · refine ⟨(a, r :: g), rest, ?_, hac.symm⟩
      simp [groupStep, hac]
    · refine ⟨(r.account, [r]), (a, g) :: rest, ?_, rfl⟩
      simp [groupStep, hac]

theorem groupRuns_groups (l : List CsvRecord) :
    ∀ p ∈ groupRuns l, p.2 ≠ [] ∧ (∀ r ∈ p.2, r.account = p.1) ∧ (∀ r ∈ p.2, r ∈ l) := by
  induction l with
  | nil => intro p hp; exact absurd hp (by simp [groupRuns])
  | cons x xs ih =>
    intro p hp
    have hp' : p ∈ groupStep x (groupRuns xs) := hp
    cases h : groupRuns xs with
    | nil =>
      rw [h] at hp'
      simp only [groupStep, List.mem_singleton] at hp'
      subst hp'
      refine ⟨by simp, ?_, ?_⟩
      · intro r hr
        have hrx : r = x := by simpa using hr
        rw [hrx]
      · intro r hr
        have hrx : r = x := by simpa using hr
        rw [hrx]
        exact List.mem_cons_self x xs
    | cons q rest =>
      obtain ⟨a, g⟩ := q
      rw [h] at hp'
      have hqmem : (a, g) ∈ groupRuns xs := by
        rw [h]
        exact List.mem_cons_self _ _
      obtain ⟨hgne, hgacc, hgsub⟩ := ih (a, g) hqmem
      by_cases hac : x.account = a
      · simp only [groupStep] at hp'
        rw [if_pos hac] at hp'
        rcases List.mem_cons.mp hp' with he | hm
        · subst he
          refine ⟨by simp, ?_, ?_⟩
          · intro r hr
            rcases List.mem_cons.mp hr with he2 | hm2
            · rw [he2]; exact hac
            · exact hgacc r hm2
          · intro r hr
            rcases List.mem_cons.mp hr with he2 | hm2
            · rw [he2]; exact List.mem_cons_self x xs
            · exact List.mem_cons_of_mem x (hgsub r hm2)
        · obtain ⟨hne2, hacc2, hsub2⟩ := ih p (by rw [h]; exact List.mem_cons_of_mem _ hm)
          exact ⟨hne2, hacc2, fun r hr => List.mem_cons_of_mem x (hsub2 r hr)⟩
      · simp only [groupStep] at hp'
        rw [if_neg hac] at hp'
        rcases List.mem_cons.mp hp' with he | hm
        · subst he
          refine ⟨by simp, ?_, ?_⟩
          · intro r hr
            have hrx : r = x := by simpa using hr
            rw [hrx]
          · intro r hr
            have hrx : r = x := by simpa using hr
            rw [hrx]
            exact List.mem_cons_self x xs
        · obtain ⟨hne2, hacc2, hsub2⟩ := ih p (by rw [h]; exact hm)
          exact ⟨hne2, hacc2, fun r hr => List.mem_cons_of_mem x (hsub2 r hr)⟩

theorem groupRuns_append (xs ys : List CsvRecord)
    (h : ∀ x, xs.getLast? = some x → ∀ y, ys.head? = some y → x.account ≠ y.account) :
    groupRuns (xs ++ ys) = groupRuns xs ++ groupRuns ys := by
  induction xs with
  | nil => simp [groupRuns]
  | cons x xs ih =>
    cases xs with
    | nil =>
      cases ys with
      | nil => simp [groupRuns]
      | cons y ys2 =>
        have hxy : x.account ≠ y.account := h x (by simp) y (by simp)
        obtain ⟨g, gs, hg, hk⟩ := groupRuns_cons_head y ys2
        obtain ⟨a, grp⟩ := g
        have hL : groupRuns ([x] ++ y :: ys2) = groupStep x (groupRuns (y :: ys2)) := rfl
        rw [hL, hg]
        simp only [groupStep]
        rw [if_neg (fun he => hxy (he.trans hk))]
        rfl
    | cons x2 xs2 =>
      have ih' := ih (fun z hz y hy =>
        h z (by rw [List.getLast?_cons_cons]; exact hz) y hy)
      obtain ⟨g, gs, hg, hk⟩ := groupRuns_cons_head x2 xs2
      obtain ⟨a, grp⟩ := g
      have hg2 : groupRuns ((x2 :: xs2) ++ ys) = (a, grp) :: (gs ++ groupRuns ys) := by
        rw [ih', hg]
        rfl
      have hL : groupRuns ((x :: x2 :: xs2) ++ ys) =
          groupStep x (groupRuns ((x2 :: xs2) ++ ys)) := rfl
      have hR : groupRuns (x :: x2 :: xs2) = groupStep x ((a, grp) :: gs) := by
        show groupStep x (groupRuns (x2 :: xs2)) = groupStep x ((a, grp) :: gs)
        rw [hg]
      rw [hL, hg2, hR]
      simp only [groupStep]
      by_cases hac : x.account = a
      · rw [if_pos hac, if_pos hac]
        rfl
      · rw [if_neg hac, if_neg hac]
        rfl

theorem groupRuns_all_eq (acct : String) (l : List CsvRecord)
    (h : ∀ r ∈ l, r.account = acct) (hne : l ≠ []) :
    groupRuns l = [(acct, l)] := by
  induction l with
  | nil => exact absurd rfl hne
  | cons a as ih =>
    cases as with
    | nil =>
      have ha : a.account = acct := h a (List.mem_cons_self a [])
      show groupStep a (groupRuns []) = _
      simp [groupRuns, groupStep, ha]
    | cons b bs =>
      have has : groupRuns (b :: bs) = [(acct, b :: bs)] :=
        ih (fun r hr => h r (List.mem_cons_of_mem a hr)) (by simp)
      have ha : a.account = acct := h a (List.mem_cons_self _ _)
      show groupStep a (groupRuns (b :: bs)) = _
      rw [has]
      simp [groupStep, ha]

theorem applyInsert_extends (t : Table) (r : CsvRecord) :
    ∃ ex, applyInsert t r = t ++ ex ∧ ∀ x ∈ ex, x.account = r.account := by
  unfold applyInsert
  split
  · exact ⟨[], by simp, by simp⟩
  · refine ⟨[mkStored r], rfl, ?_⟩
    intro x hx
    have hxr : x = mkStored r := by simpa using hx
    rw [hxr]
    rfl

theorem foldl_insertStep_table_extends (oracle : Nat → Bool) (l : List CsvRecord) :
    ∀ s : DbState, ∃ ex, (l.foldl (insertStep oracle) s).table = s.table ++ ex ∧
      ∀ x ∈ ex, ∃ r ∈ l, x.account = r.account := by
  induction l with
  | nil => intro s; exact ⟨[], by simp, by simp⟩
  | cons a as ih =>
    intro s
    rw [List.foldl_cons]
    obtain ⟨ex2, he2, hx2⟩ := ih (insertStep oracle s a)
    have h1 : ∃ ex1, (insertStep oracle s a).table = s.table ++ ex1 ∧
        ∀ x ∈ ex1, x.account = a.account := by
      rw [insertStep_table]
      by_cases ho : oracle s.oracleIdx = true
      · rw [if_pos ho]
        exact applyInsert_extends s.table a
      · rw [if_neg ho]
        exact ⟨[], by simp, by simp⟩
    obtain ⟨ex1, he1, hx1⟩ := h1
    refine ⟨ex1 ++ ex2, ?_, ?_⟩
    · rw [he2, he1, List.append_assoc]
    · intro x hx
      rcases List.mem_append.mp hx with h1m | h2m
      · exact ⟨a, List.mem_cons_self a as, hx1 x h1m⟩
      · obtain ⟨r, hr, hacc⟩ := hx2 x h2m
        exact ⟨r, List.mem_cons_of_mem a hr, hacc⟩

theorem import_refs_table_extends (oracle : Nat → Bool) (records : List CsvRecord) :
    ∀ s : DbState, ∃ ex, (import_refs oracle records s).table = s.table ++ ex ∧
      ∀ x ∈ ex, ∃ r ∈ records, x.account = r.account := by
  unfold import_refs
  induction chunksOf 50 records with
  | nil => intro s; exact ⟨[], by simp, by simp⟩
  | cons c cl ih =>
    intro s
    rw [List.foldl_cons]
    obtain ⟨ex1, he1, hx1⟩ := foldl_insertStep_table_extends oracle records s
    obtain ⟨ex2, he2, hx2⟩ := ih (records.foldl (insertStep oracle) s)
    refine ⟨ex1 ++ ex2, ?_, ?_⟩
    · rw [he2, he1, List.append_assoc]
    · intro x hx
      rcases List.mem_append.mp hx with h1m | h2m
      · exact hx1 x h1m
      · exact hx2 x h2m

theorem filter_account_import_refs (oracle : Nat → Bool) (records : List CsvRecord)
    (acct : String) (s : DbState) (h : ∀ r ∈ records, r.account ≠ acct) :
    (import_refs oracle records s).table.filter (fun x => x.account == acct) =
      s.table.filter (fun x => x.account == acct) := by
  obtain ⟨ex, he, hx⟩ := import_refs_table_extends oracle records s
  rw [he, List.filter_append]
  have hnil : ex.filter (fun x => x.account == acct) = [] := by
    rw [List.filter_eq_nil_iff]
    intro x hxm
    obtain ⟨r, hr, hacc⟩ := hx x hxm
    simp only [beq_iff_eq, hacc]
    exact h r hr
  rw [hnil, List.append_nil]

theorem select_congr (acct : String) (t1 t2 : Table)
    (h : t1.filter (fun x => x.account == acct) = t2.filter (fun x => x.account == acct)) :
    select_max_tx_for_account acct t1 = select_max_tx_for_account acct t2 := by
  unfold select_max_tx_for_account
  rw [h]

theorem lnrStep_of_error (oracle : Nat → Bool) (s : DbState)
    (g : String × List CsvRecord) (e : SqlxError)
    (hsel : select_max_tx_for_account g.1 s.table = Except.error e) :
    lnrStep oracle s g = s := by
  unfold lnrStep
  rw [hsel]

theorem lnrStep_of_ok_empty (oracle : Nat → Bool) (s : DbState)
    (g : String × List CsvRecord) (m : Int)
    (hsel : select_max_tx_for_account g.1 s.table = Except.ok m)
    (hemp : (g.2.filter (newForMax m)).isEmpty = true) :
    lnrStep oracle s g = s := by
  unfold lnrStep
  rw [hsel]
  show (if (g.2.filter (newForMax m)).isEmpty then s
    else import_refs oracle (g.2.filter (newForMax m))
      { s with passed := s.passed ++ g.2.filter (newForMax m) }) = s
  rw [if_pos hemp]

theorem lnrStep_of_ok_nonempty (oracle : Nat → Bool) (s : DbState)
    (g : String × List CsvRecord) (m : Int)
    (hsel : select_max_tx_for_account g.1 s.table = Except.ok m)
    (hemp : (g.2.filter (newForMax m)).isEmpty = false) :
    lnrStep oracle s g = import_refs oracle (g.2.filter (newForMax m))
      { s with passed := s.passed ++ g.2.filter (newForMax m) } := by
  unfold lnrStep
  rw [hsel]
  show (if (g.2.filter (newForMax m)).isEmpty then s
    else import_refs oracle (g.2.filter (newForMax m))
      { s with passed := s.passed ++ g.2.filter (newForMax m) }) = _
  rw [if_neg (by simp [hemp])]

theorem lnrStep_other (oracle : Nat → Bool) (acct : String) (s : DbState)
    (g : String × List CsvRecord) (hkey : g.1 ≠ acct)
    (hmem : ∀ r ∈ g.2, r.account = g.1) :
    (lnrStep oracle s g).table.filter (fun x => x.account == acct) =
      s.table.filter (fun x => x.account == acct) ∧
    (lnrStep oracle s g).passed.filter (fun r => r.account == acct) =
      s.passed.filter (fun r => r.account == acct) := by
  cases hsel : select_max_tx_for_account g.1 s.table with
  | error e =>
    rw [lnrStep_of_error oracle s g e hsel]
    exact ⟨rfl, rfl⟩
  | ok m =>
    cases hemp : (g.2.filter (newForMax m)).isEmpty with
    | true =>
      rw [lnrStep_of_ok_empty oracle s g m hsel hemp]
      exact ⟨rfl, rfl⟩
    | false =>
      rw [lnrStep_of_ok_nonempty oracle s g m hsel hemp]
      have hacc : ∀ r ∈ g.2.filter (newForMax m), r.account ≠ acct := by
        intro r hr
        rw [hmem r (List.mem_of_mem_filter hr)]
        exact hkey
      constructor
      · rw [filter_account_import_refs oracle _ acct _ hacc]
      · rw [import_refs_passed]
        show (s.passed ++ g.2.filter (newForMax m)).filter (fun r => r.account == acct) = _
        rw [List.filter_append]
        have hnil : (g.2.filter (newForMax m)).filter (fun r => r.account == acct) = [] := by
          rw [List.filter_eq_nil_iff]
          intro r hr
          simp only [beq_iff_eq, hmem r (List.mem_of_mem_filter hr)]
          exact hkey
        rw [hnil, List.append_nil]

theorem foldl_lnrStep_other (oracle : Nat → Bool) (acct : String)
    (gs : List (String × List CsvRecord))
    (h : ∀ p ∈ gs, p.1 ≠ acct ∧ ∀ r ∈ p.2, r.account = p.1) :
    ∀ s : DbState,
      (gs.foldl (lnrStep oracle) s).table.filter (fun x => x.account == acct) =
        s.table.filter (fun x => x.account == acct) ∧
      (gs.foldl (lnrStep oracle) s).passed.filter (fun r => r.account == acct) =
        s.passed.filter (fun r => r.account == acct) := by
  induction gs with
  | nil => intro s; exact ⟨rfl, rfl⟩
  | cons g gs ih =>
    intro s
    rw [List.foldl_cons]
    have hg := h g (List.mem_cons_self g gs)
    have hstep := lnrStep_other oracle acct s g hg.1 hg.2
    have ihs := ih (fun p hp => h p (List.mem_cons_of_mem g hp)) (lnrStep oracle s g)
    exact ⟨ihs.1.trans hstep.1, ihs.2.trans hstep.2⟩

/-- C3 (amended): in IncrementalNew mode, provided all records of an
account form one contiguous run in the input (the adjacency grouping
of `group_by`), and the account has persisted rows with maximum
ordinal `m`, exactly the incoming records of that account with
`id > m` (as u64) are handed to the batch importer; with
non-contiguous runs, imports committed by an earlier run raise the
maximum seen by a later run's query, so the original claim fails. -/
theorem load_new_rows_contiguous_filter (oracle : Nat → Bool) (acct : String)
    (pre mid post : List CsvRecord) (s : DbState) (m : Int)
    (hpre : ∀ r ∈ pre, r.account ≠ acct)
    (hmid : ∀ r ∈ mid, r.account = acct)
    (hpost : ∀ r ∈ post, r.account ≠ acct)
    (hne : mid ≠ [])
    (hsel : select_max_tx_for_account acct s.table = Except.ok m)
    (hpass : s.passed = []) :
    (load_new_rows oracle (pre ++ (mid ++ post)) s).passed.filter
        (fun r => r.account == acct) =
      mid.filter (newForMax m) := by
  have hb1 : ∀ x, pre.getLast? = some x → ∀ y, (mid ++ post).head? = some y →
      x.account ≠ y.account := by
    intro x hx y hy
    have hxm : x ∈ pre := mem_of_getLast_eq hx
    have hym : y ∈ mid := by
      cases mid with
      | nil => exact absurd rfl hne
      | cons a as =>
        have hay : a = y := by simpa using hy
        rw [← hay]
        exact List.mem_cons_self a as
    rw [hmid y hym]
    exact hpre x hxm
  have hb2 : ∀ x, mid.getLast? = some x → ∀ y, post.head? = some y →
      x.account ≠ y.account := by
    intro x hx y hy
    have hxm : x ∈ mid := mem_of_getLast_eq hx
    have hym : y ∈ post := mem_of_head_eq hy
    rw [hmid x hxm]
    intro he
    exact hpost y hym he.symm
  have hsplit : groupRuns (pre ++ (mid ++ post)) =
      groupRuns pre ++ ([(acct, mid)] ++ groupRuns post) := by
    rw [groupRuns_append pre (mid ++ post) hb1,
      groupRuns_append mid post hb2,
      groupRuns_all_eq acct mid hmid hne]
  unfold load_new_rows
  rw [hsplit, List.foldl_append, List.foldl_append]
  have hprops : ∀ p ∈ groupRuns pre, p.1 ≠ acct ∧ ∀ r ∈ p.2, r.account = p.1 := by
    intro p hp
    obtain ⟨hne2, hacc2, hsub2⟩ := groupRuns_groups pre p hp
    obtain ⟨r, hr⟩ := List.exists_mem_of_ne_nil p.2 hne2
    exact ⟨by rw [← hacc2 r hr]; exact hpre r (hsub2 r hr), hacc2⟩
  have hprops2 : ∀ p ∈ groupRuns post, p.1 ≠ acct ∧ ∀ r ∈ p.2, r.account = p.1 := by
    intro p hp
    obtain ⟨hne2, hacc2, hsub2⟩ := groupRuns_groups post p hp
    obtain ⟨r, hr⟩ := List.exists_mem_of_ne_nil p.2 hne2
    exact ⟨by rw [← hacc2 r hr]; exact hpost r (hsub2 r hr), hacc2⟩
  have hfold1 := foldl_lnrStep_other oracle acct (groupRuns pre) hprops s
  set s1 := (groupRuns pre).foldl (lnrStep oracle) s with hs1
  have hsel1 : select_max_tx_for_account acct s1.table = Except.ok m := by
    rw [select_congr acct s1.table s.table hfold1.1]
    exact hsel
  have hmidstep : [(acct, mid)].foldl (lnrStep oracle) s1 = lnrStep oracle s1 (acct, mid) := rfl
  rw [hmidstep]
  cases hemp : (mid.filter (newForMax m)).isEmpty with
  | true =>
    rw [lnrStep_of_ok_empty oracle s1 (acct, mid) m hsel1 hemp]
    have hfold2 := foldl_lnrStep_other oracle acct (groupRuns post) hprops2 s1
    rw [hfold2.2, hfold1.2, hpass]
    rw [List.isEmpty_iff.mp hemp]
    rfl
  | false =>
    rw [lnrStep_of_ok_nonempty oracle s1 (acct, mid) m hsel1 hemp]
    have hfold2 := foldl_lnrStep_other oracle acct (groupRuns post) hprops2
      (import_refs oracle (mid.filter (newForMax m))
        { s1 with passed := s1.passed ++ mid.filter (newForMax m) })
    rw [hfold2.2, import_refs_passed]
    show (s1.passed ++ mid.filter (newForMax m)).filter (fun r => r.account == acct) =
      mid.filter (newForMax m)
    rw [List.filter_append, hfold1.2, hpass]
    have hself : (mid.filter (newForMax m)).filter (fun r => r.account == acct) =
        mid.filter (newForMax m) := by
      rw [List.filter_eq_self]
      intro r hr
      simp only [beq_iff_eq]
      exact hmid r (List.mem_of_mem_filter hr)
    rw [hself]
    rfl

/-- Witness for C3 (amended): one contiguous run for account A with
persisted maximum 5 passes exactly the records with id above 5. -/
theorem load_new_rows_contiguous_filter_witness :
    (load_new_rows happyOracle ([] ++ ([mkRec "A" 7, mkRec "A" 3] ++ []))
        (DbState.init [mkStored (mkRec "A" 5)])).passed.filter
        (fun r => r.account == "A") =
      [mkRec "A" 7] := by
  have h := load_new_rows_contiguous_filter happyOracle "A"
    [] [mkRec "A" 7, mkRec "A" 3] [] (DbState.init [mkStored (mkRec "A" 5)]) 5
    (by simp) (by decide) (by simp) (by simp) (by decide) rfl
  rw [h]
  decide

/-- C3 counterexample: with persisted maxima A=5 and C=0 and input
`[A7, C1, A6]` (account A in two non-contiguous runs), record A6 has
id 6 above A's persisted maximum 5 yet is never handed to the batch
inserter: the first A-run commits A7 before the second run's query,
which then reports 7. -/
theorem load_new_rows_noncontiguous_drop :
    select_max_tx_for_account "A"
      [mkStored (mkRec "A" 5), mkStored (mkRec "C" 0)] = Except.ok 5 ∧
    (6 : Nat) > 5 ∧
    (load_new_rows happyOracle [mkRec "A" 7, mkRec "C" 1, mkRec "A" 6]
      (DbState.init [mkStored (mkRec "A" 5), mkStored (mkRec "C" 0)])).passed =
      [mkRec "A" 7, mkRec "C" 1] ∧
    mkRec "A" 6 ∉ (load_new_rows happyOracle [mkRec "A" 7, mkRec "C" 1, mkRec "A" 6]
      (DbState.init [mkStored (mkRec "A" 5), mkStored (mkRec "C" 0)])).passed := by
  decide
